import Mathlib

/-!
# Verification of the Dune rules-engine core (`src/main.rs`)

A shallow embedding of the turn-phase state machine, action stack and
storm/camera logic of the game, together with theorems settling the
specification's claims.  Machine integers (`i32`) are modelled as `Int`
(no arithmetic here comes near the `i32` range); `f32` time and vector
arithmetic is modelled exactly over `ℚ` (control flow) and `ℝ` (the cosine
easing curve); Rust's `%` on `i32` is truncated remainder, `Int.tmod`.
-/

namespace Dune

/-- Modelled from the spec: the fixed six-member faction enumeration.
The `Faction` type itself lives in `data.rs` (not part of the sources here);
its six variants are those named by `main.rs` and the spec's glossary. -/
inductive Faction where
  | atreides
  | beneGesserit
  | emperor
  | fremen
  | harkonnen
  | spacingGuild
deriving DecidableEq

/-- Modelled from the spec: a leader card.  `data.rs` is not part of the
sources; `main.rs` uses exactly a `faction` field (equality-compared) and a
`texture` field (a string). -/
structure Leader where
  faction : Faction
  texture : String
deriving DecidableEq

/-- Modelled from the spec: a storm card; `main.rs` constructs them as
`StormCard { val }` with `val : i32` drawn from `1..7`. -/
structure StormCard where
  val : Int
deriving DecidableEq

/-- Entities are opaque ids handed out by the ECS; we model them as `ℕ`. -/
abbrev Entity := Nat

/-- The signature of `Faction::initial_values()` (defined in `data.rs`,
not part of the sources): starting troop count, optional list of allowed
start locations, and starting spice.  Theorems quantify over it. -/
abbrev InitialValues := Faction → Int × Option (List String) × Int

/-- `struct Player` of `main.rs` (card handles as entity ids, spice tokens
by their `value` field). -/
structure Player where
  faction : Faction
  traitor_cards : List Entity
  treachery_cards : List Entity
  spice : List Int
  total_spice : Int
  reserve_troops : Int
  leaders : List Leader
deriving DecidableEq

/-- `Player::new` of `main.rs`. -/
def Player.new (faction : Faction) (all_leaders : List Leader)
    (iv : InitialValues) : Player :=
  let troops := (iv faction).1
  let spice := (iv faction).2.2
  { faction := faction
    traitor_cards := []
    treachery_cards := []
    spice := []
    total_spice := spice
    reserve_troops := 20 - troops
    leaders := all_leaders.filter (fun leader => leader.faction == faction) }

/-- The `Action` enum of `main.rs` (the `CameraMotion` variant is modelled
separately, see `CamMotion`, because it carries float-valued transforms). -/
inductive Action where
  | choice (player : Entity) (options : List Action)
  | simultaneous (actions : List Action)
  | makePrediction (player : Entity)
  | placeFreeTroops (player : Entity) (num : Int) (locations : Option (List String))
  | placeTroops (player : Entity) (num : Int) (locations : Option (List String))
  | pickTraitors
  | playPrompt (treachery_card : String)
  | buttonPress

/-- The action stack.  The Rust `ActionStack` is a `Vec` whose top is its
last element; we write it as a list whose top is its head, so `push` is
`cons` and `pop` takes the head. -/
abbrev ActionStack := List Action

/-! ## Storm movement (`StormSubPhase::MoveStorm`, turn ≠ 0) -/

/-- The sector update of `MoveStorm`: `storm.sector += delta; storm.sector %= 18`.
Rust `%` on `i32` is truncated remainder, i.e. `Int.tmod`. -/
def stormUpdate (sector : Int) (delta : Int) : Int :=
  (sector + delta).tmod 18

/-- The `turn ≠ 0` branch of `StormSubPhase::MoveStorm` in `handle_phase`:
read (`Vec::last`) the top card of `storm_deck`, update the sector, then
reshuffle the whole deck.  `shuffle` abstracts the RNG permutation chosen
by `SliceRandom::shuffle`; `none` is the `unwrap` panic on an empty deck. -/
def moveStorm (storm_deck : List StormCard) (sector : Int)
    (shuffle : List StormCard → List StormCard) :
    Option (List StormCard × Int) :=
  match storm_deck.getLast? with
  | none => none
  | some card => some (shuffle storm_deck, stormUpdate sector card.val)

/-- `MoveStorm` as the spec's words describe it: the top card is *popped*
(removed from the deck) before the reshuffle.  Written only to be compared
with `moveStorm`, the definition taken from the source. -/
def moveStormSpec (storm_deck : List StormCard) (sector : Int)
    (shuffle : List StormCard → List StormCard) :
    Option (List StormCard × Int) :=
  match storm_deck.getLast? with
  | none => none
  | some card => some (shuffle storm_deck.dropLast, stormUpdate sector card.val)

/-! ## Theorems: storm movement (C3, C4) -/

/-- For non-negative operands, the sector update is the euclidean remainder. -/
theorem stormUpdate_eq_emod {s v : Int} (hs : 0 ≤ s) (hv : 0 ≤ v) :
    stormUpdate s v = (s + v) % 18 :=
  Int.tmod_eq_emod (by omega) (by omega)

/-- The sector update lands in `[0, 18)` for non-negative operands. -/
theorem stormUpdate_bounds {s v : Int} (hs : 0 ≤ s) (hv : 0 ≤ v) :
    0 ≤ stormUpdate s v ∧ stormUpdate s v < 18 := by
  rw [stormUpdate_eq_emod hs hv]
  exact ⟨Int.emod_nonneg _ (by omega), Int.emod_lt_of_pos _ (by omega)⟩

/-- A three-card storm deck used for concrete evaluations. -/
def stormDeckCE : List StormCard := [⟨1⟩, ⟨2⟩, ⟨3⟩]

/-- C3 counterexample: on the deck `[1, 2, 3]` the `MoveStorm` branch reads the
top card (value 3) but does *not* remove it — every card is still in the deck
afterwards (with the identity permutation as the reshuffle outcome), so the
result differs from the popped-card behaviour the claim describes. -/
theorem moveStorm_top_card_not_removed :
    moveStorm stormDeckCE 0 id = some (stormDeckCE, 3) ∧
    moveStorm stormDeckCE 0 id ≠ moveStormSpec stormDeckCE 0 id := by
  constructor
  · decide
  · decide

/-- C3 (amended): on any turn other than turn 0 with a non-empty storm deck,
the top card of `storm_deck` is *read without being removed*, its value is
added to the current sector with Rust `%= 18`, and the deck is then
reshuffled — the reshuffled deck is a permutation of the whole original deck
(no card leaves it). -/
theorem moveStorm_reads_top_and_reshuffles (deck : List StormCard) (sector : Int)
    (shuffle : List StormCard → List StormCard) (card : StormCard)
    (htop : deck.getLast? = some card)
    (hperm : ∀ l, (shuffle l).Perm l) :
    moveStorm deck sector shuffle =
      some (shuffle deck, stormUpdate sector card.val) ∧
    (shuffle deck).Perm deck := by
  refine ⟨?_, hperm deck⟩
  simp [moveStorm, htop]

/-- Witness for the amended C3 theorem at the concrete deck `[1, 2, 3]`. -/
theorem moveStorm_reads_top_and_reshuffles_witness :
    moveStorm stormDeckCE 0 id =
      some (id stormDeckCE, stormUpdate 0 (StormCard.mk 3).val) ∧
    (id stormDeckCE).Perm stormDeckCE :=
  moveStorm_reads_top_and_reshuffles stormDeckCE 0 id ⟨3⟩ (by decide)
    (fun l => List.Perm.refl l)

/-- C4: for any starting sector `s ∈ [0, 18)` and any storm card value
`v` (the storm cards of this program carry values `1..6`), one `MoveStorm`
update yields `(s + v) % 18`, and repeated application (a fold of the update
over any list of card values) never leaves `[0, 18)`. -/
theorem stormUpdate_wraps :
    (∀ s v : Int, 0 ≤ s → s < 18 → 1 ≤ v → v ≤ 6 →
      stormUpdate s v = (s + v) % 18 ∧
      0 ≤ stormUpdate s v ∧ stormUpdate s v < 18) ∧
    (∀ (s : Int) (vs : List Int), 0 ≤ s → s < 18 →
      (∀ v ∈ vs, 1 ≤ v ∧ v ≤ 6) →
      0 ≤ vs.foldl stormUpdate s ∧ vs.foldl stormUpdate s < 18) := by
  constructor
  · intro s v hs0 hs18 hv1 hv6
    exact ⟨stormUpdate_eq_emod hs0 (by omega),
      stormUpdate_bounds hs0 (by omega)⟩
  · intro s vs
    induction vs generalizing s with
    | nil => intro h0 h18 _; exact ⟨h0, h18⟩
    | cons v vs ih =>
      intro h0 h18 hmem
      have hv := hmem v (List.mem_cons_self _ _)
      have hb := @stormUpdate_bounds s v h0 (by omega)
      simpa using ih (stormUpdate s v) hb.1 hb.2
        (fun w hw => hmem w (List.mem_cons_of_mem _ hw))

/-- Witness for C4 at `s = 17`, `v = 3` and the value list `[3, 6]`. -/
theorem stormUpdate_wraps_witness :
    (stormUpdate 17 3 = (17 + 3) % 18 ∧
      0 ≤ stormUpdate 17 3 ∧ stormUpdate 17 3 < 18) ∧
    (0 ≤ [(3 : Int), 6].foldl stormUpdate 17 ∧
      [(3 : Int), 6].foldl stormUpdate 17 < 18) :=
  ⟨stormUpdate_wraps.1 17 3 (by decide) (by decide) (by decide) (by decide),
   stormUpdate_wraps.2 17 [3, 6] (by decide) (by decide) (by decide)⟩

/-! ## Camera motion (`Action::CameraMotion` in `handle_actions`)

The Rust code works on `f32` vectors and quaternions.  We model the vector
arithmetic exactly over `ℚ`; the rotation quaternion and the two float-only
ingredients — `Transform::looking_at`'s rotation and `Quat::lerp` — are kept
abstract as parameters (`lookAt`, `rotLerp`), since the control flow of
`handle_actions` never inspects rotations.  The cosine easing is likewise a
parameter `ease` of the step function; its concrete curve is studied
separately over `ℝ` (`easedParam`). -/

/-- An exact stand-in for `glam`'s `Vec3` (`f32` components as `ℚ`). -/
structure Vec3 where
  x : ℚ
  y : ℚ
  z : ℚ
deriving DecidableEq

/-- `Vec3::lerp`: `a + (b - a) * t`, componentwise. -/
def Vec3.lerp (a b : Vec3) (t : ℚ) : Vec3 :=
  ⟨a.x + (b.x - a.x) * t, a.y + (b.y - a.y) * t, a.z + (b.z - a.z) * t⟩

/-- A camera node from `camera_nodes.ron`: position, look-at target and up
vector.  (The Rust field called `at` is written `at_` here, `at` being a
Lean keyword.) -/
structure CameraNode where
  pos : Vec3
  at_ : Vec3
  up : Vec3
deriving DecidableEq

/-- `bevy`'s `Transform`, restricted to what `handle_actions` touches:
the translation and the rotation, the latter abstract. -/
structure Transform (ρ : Type) where
  translation : Vec3
  rotation : ρ
deriving DecidableEq

/-- `Transform::from_translation(dest.pos).looking_at(dest.at, dest.up)` —
the snap-to-destination transform.  Its translation is `dest.pos`; its
rotation is whatever the float-valued `looking_at` computes, abstracted as
`lookAt`. -/
def destTransform {ρ : Type} (lookAt : Vec3 → Vec3 → Vec3 → ρ)
    (dest : CameraNode) : Transform ρ :=
  ⟨dest.pos, lookAt dest.pos dest.at_ dest.up⟩

/-- The payload of `Action::CameraMotion`. -/
structure CamMotion (ρ : Type) where
  src : Option (Transform ρ)
  dest : CameraNode
  remaining_time : ℚ
  total_time : ℚ
deriving DecidableEq

/-- `Action::move_camera`: a fresh motion, no captured source,
`remaining_time = total_time`. -/
def CamMotion.moveCamera {ρ : Type} (dest : CameraNode) (time : ℚ) :
    CamMotion ρ :=
  ⟨none, dest, time, time⟩

/-- One tick of `handle_actions` on a `CameraMotion` at the stack top.
`cam` is the camera transform, `dt` is `time.delta_seconds()`.  Returns the
new camera transform together with `some` updated motion if the action stays
on the stack, `none` if it was popped.  Mirrors the source exactly:
* `remaining_time <= 0`: snap to the destination transform and pop;
* otherwise, if the camera translation differs from `dest.pos`: interpolate
  when `src` is already captured, else capture `src := cam`; in **either**
  case `remaining_time` is decremented by `dt`;
* otherwise (translation already equals `dest.pos`): pop.
The interpolation applies `ease` to `(total_time - remaining_time) / total_time`
(the source folds `π` and `cos` into this easing) and builds
`Transform::from_translation(lerp) * Transform::from_rotation(rotLerp)`,
whose translation is the vector lerp and whose rotation is the rotation
lerp. -/
def camStep {ρ : Type} (lookAt : Vec3 → Vec3 → Vec3 → ρ) (ease : ℚ → ℚ)
    (rotLerp : ρ → ρ → ℚ → ρ) (cam : Transform ρ) (m : CamMotion ρ)
    (dt : ℚ) : Transform ρ × Option (CamMotion ρ) :=
  if m.remaining_time ≤ 0 then
    (destTransform lookAt m.dest, none)
  else if cam.translation ≠ m.dest.pos then
    match m.src with
    | some src_transform =>
      let t := ease ((m.total_time - m.remaining_time) / m.total_time)
      let d := destTransform lookAt m.dest
      (⟨src_transform.translation.lerp d.translation t,
        rotLerp src_transform.rotation d.rotation t⟩,
        some { m with remaining_time := m.remaining_time - dt })
    | none =>
      (cam, some { m with src := some cam,
                          remaining_time := m.remaining_time - dt })
  else
    (cam, none)

/-- One tick of the `handle_actions` system when the stack holds at most
this one camera action; an empty stack leaves everything unchanged. -/
def camTick {ρ : Type} (lookAt : Vec3 → Vec3 → Vec3 → ρ) (ease : ℚ → ℚ)
    (rotLerp : ρ → ρ → ℚ → ρ) :
    Transform ρ × Option (CamMotion ρ) → ℚ → Transform ρ × Option (CamMotion ρ)
  | (cam, none), _ => (cam, none)
  | (cam, some m), dt => camStep lookAt ease rotLerp cam m dt

/-- `n` ticks, the `k`-th using duration `f k`. -/
def camIter {ρ : Type} (lookAt : Vec3 → Vec3 → Vec3 → ρ) (ease : ℚ → ℚ)
    (rotLerp : ρ → ρ → ℚ → ρ) (f : ℕ → ℚ)
    (st : Transform ρ × Option (CamMotion ρ)) :
    ℕ → Transform ρ × Option (CamMotion ρ)
  | 0 => st
  | n + 1 => camTick lookAt ease rotLerp
      (camIter lookAt ease rotLerp f st n) (f n)

/-- Cumulative duration of the first `n` ticks. -/
def ticksSum (f : ℕ → ℚ) (n : ℕ) : ℚ :=
  ((List.range n).map f).sum

/-- The eased interpolation parameter of `CameraMotion`, over `ℝ`, written
as a function of the total time `T` and the elapsed time `e = T - remaining`:
`lerp_amount = PI * (total - remaining) / total;
 lerp_amount = -0.5 * lerp_amount.cos() + 0.5`. -/
noncomputable def easedParam (T e : ℝ) : ℝ :=
  -0.5 * Real.cos (Real.pi * e / T) + 0.5

/-! ## Support lemmas for the camera model -/

/-- A vector lerp with parameter `≠ 1` never lands exactly on a distinct
endpoint. -/
theorem Vec3.lerp_ne {a b : Vec3} {t : ℚ} (hab : a ≠ b) (ht : t ≠ 1) :
    a.lerp b t ≠ b := by
  obtain ⟨a1, a2, a3⟩ := a
  obtain ⟨b1, b2, b3⟩ := b
  intro h
  apply hab
  simp only [Vec3.lerp, Vec3.mk.injEq] at h ⊢
  obtain ⟨h1, h2, h3⟩ := h
  have h1t : (1 : ℚ) - t ≠ 0 := fun hh => ht (by linarith)
  have e1 : (b1 - a1) * (1 - t) = 0 := by linear_combination -h1
  have e2 : (b2 - a2) * (1 - t) = 0 := by linear_combination -h2
  have e3 : (b3 - a3) * (1 - t) = 0 := by linear_combination -h3
  refine ⟨?_, ?_, ?_⟩
  · have := (mul_eq_zero.mp e1).resolve_right h1t; linarith
  · have := (mul_eq_zero.mp e2).resolve_right h1t; linarith
  · have := (mul_eq_zero.mp e3).resolve_right h1t; linarith

theorem ticksSum_zero (f : ℕ → ℚ) : ticksSum f 0 = 0 := rfl

theorem ticksSum_succ (f : ℕ → ℚ) (n : ℕ) :
    ticksSum f (n + 1) = ticksSum f n + f n := by
  simp [ticksSum, List.range_succ]

theorem ticksSum_nonneg (f : ℕ → ℚ) (hf : ∀ i, 0 < f i) (n : ℕ) :
    0 ≤ ticksSum f n := by
  induction n with
  | zero => simp [ticksSum]
  | succ n ih => have := hf n; rw [ticksSum_succ]; linarith

/-- The concrete easing curve stays strictly below 1 before the motion's
total time is exhausted; this is the fact the abstract `ease` parameter is
assumed to satisfy in the control-flow theorems. -/
theorem easedParam_lt_one {T e : ℝ} (hT : 0 < T) (he : 0 ≤ e) (heT : e < T) :
    easedParam T e < 1 := by
  have hx0 : 0 ≤ Real.pi * e / T := by positivity
  have hxpi : Real.pi * e / T < Real.pi := by
    rw [div_lt_iff₀ hT]; nlinarith [Real.pi_pos]
  have hcos : Real.cos Real.pi < Real.cos (Real.pi * e / T) :=
    Real.strictAntiOn_cos ⟨hx0, hxpi.le⟩ ⟨Real.pi_nonneg, le_refl _⟩ hxpi
  rw [Real.cos_pi] at hcos
  simp only [easedParam]
  linarith

/-! ## Theorems: camera motion easing (C7) -/

/-- C7: the eased parameter `t = -0.5*cos(π*(T-remaining)/T) + 0.5` is
monotonically non-decreasing in elapsed time `e = T - remaining`, and lies
in `[0, 1]` for every elapsed time in `[0, T]`. -/
theorem easedParam_monotone_bounds :
    (∀ T e1 e2 : ℝ, 0 < T → 0 ≤ e1 → e1 ≤ e2 → e2 ≤ T →
      easedParam T e1 ≤ easedParam T e2) ∧
    (∀ T e : ℝ, 0 < T → 0 ≤ e → e ≤ T →
      0 ≤ easedParam T e ∧ easedParam T e ≤ 1) := by
  constructor
  · intro T e1 e2 hT h1 h12 h2T
    have hx0 : 0 ≤ Real.pi * e1 / T := by positivity
    have hxy : Real.pi * e1 / T ≤ Real.pi * e2 / T :=
      (div_le_div_iff_of_pos_right hT).mpr (by nlinarith [Real.pi_pos])
    have hy : Real.pi * e2 / T ≤ Real.pi := by
      rw [div_le_iff₀ hT]; nlinarith [Real.pi_pos]
    have hcos := Real.cos_le_cos_of_nonneg_of_le_pi hx0 hy hxy
    simp only [easedParam]
    linarith
  · intro T e hT he heT
    have h1 := Real.neg_one_le_cos (Real.pi * e / T)
    have h2 := Real.cos_le_one (Real.pi * e / T)
    constructor <;> simp only [easedParam] <;> linarith

/-- Witness for C7 with `T = 1` and elapsed times `0 ≤ 1` and `1/2`. -/
theorem easedParam_monotone_bounds_witness :
    easedParam 1 0 ≤ easedParam 1 1 ∧
    (0 ≤ easedParam 1 (1 / 2) ∧ easedParam 1 (1 / 2) ≤ 1) :=
  ⟨easedParam_monotone_bounds.1 1 0 1 zero_lt_one (le_refl 0) zero_le_one
      (le_refl 1),
   easedParam_monotone_bounds.2 1 (1 / 2) zero_lt_one one_half_pos.le
      one_half_lt_one.le⟩

/-! ## Theorems: camera motion stepping (C5, C9, C6) -/

/-- Concrete camera data: a node at position `(1,0,0)`. -/
def nodeCE : CameraNode := ⟨⟨1, 0, 0⟩, ⟨0, 0, 0⟩, ⟨0, 1, 0⟩⟩

/-- Concrete rotation model: `Bool`, `looking_at` always yielding `true`. -/
def lookAtCE : Vec3 → Vec3 → Vec3 → Bool := fun _ _ _ => true

/-- Concrete easing: the identity (it satisfies the mid-motion bound
`x < 1 → ease x < 1`). -/
def easeCE : ℚ → ℚ := fun x => x

/-- Concrete rotation lerp. -/
def rotLerpCE : Bool → Bool → ℚ → Bool := fun _ b _ => b

/-- A camera away from `nodeCE`'s position, rotation `false`. -/
def camCE : Transform Bool := ⟨⟨0, 0, 0⟩, false⟩

/-- A camera already at `nodeCE`'s position but with a rotation different
from the one `lookAtCE` yields. -/
def camAtPosCE : Transform Bool := ⟨⟨1, 0, 0⟩, false⟩

/-- A fresh two-second motion toward `nodeCE`. -/
def mCE : CamMotion Bool := CamMotion.moveCamera nodeCE 2

/-- C5 counterexample: on the first frame of the concrete motion `mCE`
(no source captured, time remaining, camera away from the destination),
the tick captures the source but `remaining_time` falls from 2 to 1 —
time *is* advanced, contrary to the claim. -/
theorem camStep_capture_tick_advances_time :
    (camStep lookAtCE easeCE rotLerpCE camCE mCE 1).2.map
        (fun m => m.remaining_time) = some 1 ∧
    ¬ (camStep lookAtCE easeCE rotLerpCE camCE mCE 1).2.map
        (fun m => m.remaining_time) = some mCE.remaining_time := by
  norm_num [camStep, camCE, mCE, nodeCE, CamMotion.moveCamera, Vec3.mk.injEq]

/-- C5 (amended): when a `CameraMotion` is advanced with no source captured
yet, time remaining and the camera not at the destination position, the
current camera transform is captured as `src`, the camera itself is left
unchanged on that tick — and `remaining_time` *is* decremented by the
tick's duration on that same tick (the decrement sits outside the
capture/interpolate branch in the source). -/
theorem camStep_first_frame {ρ : Type} (lookAt : Vec3 → Vec3 → Vec3 → ρ)
    (ease : ℚ → ℚ) (rotLerp : ρ → ρ → ℚ → ρ) (cam : Transform ρ)
    (m : CamMotion ρ) (dt : ℚ) (hsrc : m.src = none)
    (hr : 0 < m.remaining_time) (hpos : cam.translation ≠ m.dest.pos) :
    camStep lookAt ease rotLerp cam m dt =
      (cam, some { m with src := some cam,
                          remaining_time := m.remaining_time - dt }) := by
  simp [camStep, hsrc, hpos, not_le.mpr hr]

/-- Witness for the amended C5 theorem on the concrete first frame. -/
theorem camStep_first_frame_witness :
    camStep lookAtCE easeCE rotLerpCE camCE mCE 1 =
      (camCE, some { mCE with src := some camCE,
                              remaining_time := mCE.remaining_time - 1 }) :=
  camStep_first_frame lookAtCE easeCE rotLerpCE camCE mCE 1 rfl
    (two_pos : (0 : ℚ) < 2)
    (by simp [camCE, mCE, nodeCE, CamMotion.moveCamera])

/-- C9: the degenerate-position check.  (a) A fresh motion whose destination
transform already equals the camera transform pops on its first tick with
the camera untouched.  (b) Once a motion toward a genuinely different
position is underway (source captured at a position differing from the
destination's, current position differing too, time remaining within the
total), a tick interpolates rather than popping, and the interpolated
position again differs from the destination's — so the degenerate check
never pops a motion mid-flight. -/
theorem camMotion_degenerate_check {ρ : Type} (lookAt : Vec3 → Vec3 → Vec3 → ρ)
    (ease : ℚ → ℚ) (rotLerp : ρ → ρ → ℚ → ρ) :
    (∀ (cam : Transform ρ) (dest : CameraNode) (T dt : ℚ), 0 < T →
      cam = destTransform lookAt dest →
      camStep lookAt ease rotLerp cam (CamMotion.moveCamera dest T) dt =
        (cam, none)) ∧
    (∀ (cam s : Transform ρ) (dest : CameraNode) (r T dt : ℚ),
      (∀ x : ℚ, 0 ≤ x → x < 1 → ease x < 1) →
      s.translation ≠ dest.pos → cam.translation ≠ dest.pos →
      0 < r → r ≤ T →
      (camStep lookAt ease rotLerp cam ⟨some s, dest, r, T⟩ dt).2 ≠ none ∧
      ((camStep lookAt ease rotLerp cam ⟨some s, dest, r, T⟩ dt).1).translation
        ≠ dest.pos) := by
  constructor
  · intro cam dest T dt hT hcam
    subst hcam
    simp [camStep, CamMotion.moveCamera, not_le.mpr hT, destTransform]
  · intro cam s dest r T dt hease hs hcam hr hrT
    have hT : 0 < T := lt_of_lt_of_le hr hrT
    have hx0 : 0 ≤ (T - r) / T := div_nonneg (by linarith) hT.le
    have hx1 : (T - r) / T < 1 := (div_lt_one hT).mpr (by linarith)
    have ht1 : ease ((T - r) / T) ≠ 1 := ne_of_lt (hease _ hx0 hx1)
    constructor
    · simp [camStep, hcam, not_le.mpr hr]
    · simp only [camStep, not_le.mpr hr, if_false, hcam, if_true,
        ite_not, if_neg hcam, destTransform]
      simpa [camStep, hcam, not_le.mpr hr, destTransform] using
        Vec3.lerp_ne hs ht1

/-- Witness for C9: part (a) at the destination transform itself, part (b)
on the concrete mid-motion state `⟨some camCE, nodeCE, 1, 2⟩`. -/
theorem camMotion_degenerate_check_witness :
    camStep lookAtCE easeCE rotLerpCE (destTransform lookAtCE nodeCE)
        (CamMotion.moveCamera nodeCE 2) 1 =
      (destTransform lookAtCE nodeCE, none) ∧
    ((camStep lookAtCE easeCE rotLerpCE camCE ⟨some camCE, nodeCE, 1, 2⟩ 1).2
        ≠ none ∧
      ((camStep lookAtCE easeCE rotLerpCE camCE
          ⟨some camCE, nodeCE, 1, 2⟩ 1).1).translation ≠ nodeCE.pos) :=
  ⟨(camMotion_degenerate_check lookAtCE easeCE rotLerpCE).1
      (destTransform lookAtCE nodeCE) nodeCE 2 1 (two_pos : (0 : ℚ) < 2) rfl,
   (camMotion_degenerate_check lookAtCE easeCE rotLerpCE).2 camCE camCE
      nodeCE 1 2 1 (fun _ _ h => h) (by simp [camCE, nodeCE])
      (by simp [camCE, nodeCE]) (one_pos : (0 : ℚ) < 1)
      (one_le_two : (1 : ℚ) ≤ 2)⟩

/-- Invariant of a running camera motion: after `n ≥ 1` ticks the system has
either snapped to the destination and popped, or it is mid-motion with the
source captured on the first tick, `remaining_time = T - ticksSum f n`, and
a camera position still different from the destination's. -/
theorem camIter_invariant {ρ : Type} (lookAt : Vec3 → Vec3 → Vec3 → ρ)
    (ease : ℚ → ℚ) (rotLerp : ρ → ρ → ℚ → ρ) (cam₀ : Transform ρ)
    (dest : CameraNode) (T : ℚ) (f : ℕ → ℚ)
    (hease : ∀ x : ℚ, 0 ≤ x → x < 1 → ease x < 1)
    (hT : 0 < T) (hcam : cam₀.translation ≠ dest.pos)
    (hf : ∀ i, 0 < f i) :
    ∀ n, 1 ≤ n →
      camIter lookAt ease rotLerp f
          (cam₀, some (CamMotion.moveCamera dest T)) n =
        (destTransform lookAt dest, none) ∨
      ∃ c : Transform ρ, c.translation ≠ dest.pos ∧
        camIter lookAt ease rotLerp f
            (cam₀, some (CamMotion.moveCamera dest T)) n =
          (c, some ⟨some cam₀, dest, T - ticksSum f n, T⟩) := by
  intro n hn
  induction n with
  | zero => omega
  | succ n ih =>
    rcases Nat.eq_zero_or_pos n with h0 | hpos
    · subst h0
      right
      refine ⟨cam₀, hcam, ?_⟩
      simp [camIter, camTick, camStep, CamMotion.moveCamera,
        not_le.mpr hT, hcam, ticksSum_succ, ticksSum_zero]
    · rcases ih hpos with hdone | ⟨c, hc, heq⟩
      · left
        simp [camIter, hdone, camTick]
      · by_cases hr : T - ticksSum f n ≤ 0
        · left
          simp [camIter, heq, camTick, camStep, hr]
        · push_neg at hr
          right
          have hx0 : 0 ≤ (T - (T - ticksSum f n)) / T :=
            div_nonneg (by have := ticksSum_nonneg f hf n; linarith) hT.le
          have hx1 : (T - (T - ticksSum f n)) / T < 1 :=
            (div_lt_one hT).mpr (by linarith)
          have ht1 : ease ((T - (T - ticksSum f n)) / T) ≠ 1 :=
            ne_of_lt (hease _ hx0 hx1)
          refine ⟨⟨cam₀.translation.lerp dest.pos
              (ease ((T - (T - ticksSum f n)) / T)),
              rotLerp cam₀.rotation (lookAt dest.pos dest.at_ dest.up)
                (ease ((T - (T - ticksSum f n)) / T))⟩,
            Vec3.lerp_ne hcam ht1, ?_⟩
          simp only [camIter, heq, camTick, camStep, not_le.mpr hr,
            if_false, hc, ite_not, if_neg hc, destTransform]
          have hsum : T - ticksSum f n - f n = T - ticksSum f (n + 1) := by
            rw [ticksSum_succ]; ring
          rw [hsum]

/-- C6 (amended): provided the camera is not already exactly at the
destination *position* when the motion starts (in that degenerate case the
action pops immediately, leaving the camera — in particular its rotation —
untouched), a fresh `CameraMotion` with total time `T > 0`, advanced with
positive tick durations whose cumulative sum eventually reaches `T`, ends
after finitely many ticks with the camera transform exactly the destination
transform and the action popped off the stack. -/
theorem camMotion_converges {ρ : Type} (lookAt : Vec3 → Vec3 → Vec3 → ρ)
    (ease : ℚ → ℚ) (rotLerp : ρ → ρ → ℚ → ρ) (cam₀ : Transform ρ)
    (dest : CameraNode) (T : ℚ) (f : ℕ → ℚ)
    (hease : ∀ x : ℚ, 0 ≤ x → x < 1 → ease x < 1)
    (hT : 0 < T) (hcam : cam₀.translation ≠ dest.pos)
    (hf : ∀ i, 0 < f i) (hsum : ∃ N, T ≤ ticksSum f N) :
    ∃ n, camIter lookAt ease rotLerp f
        (cam₀, some (CamMotion.moveCamera dest T)) n =
      (destTransform lookAt dest, none) := by
  obtain ⟨N, hN⟩ := hsum
  have hN1 : 1 ≤ N := by
    rcases Nat.eq_zero_or_pos N with h0 | h
    · subst h0; rw [ticksSum_zero] at hN; linarith
    · exact h
  rcases camIter_invariant lookAt ease rotLerp cam₀ dest T f hease hT hcam hf
      N hN1 with hdone | ⟨c, hc, heq⟩
  · exact ⟨N, hdone⟩
  · refine ⟨N + 1, ?_⟩
    have hr : T - ticksSum f N ≤ 0 := by linarith
    simp [camIter, heq, camTick, camStep, hr]

/-- After its first tick, the degenerate concrete motion is popped and the
state never changes again. -/
theorem camIter_degenerate_fix (n : ℕ) :
    camIter lookAtCE easeCE rotLerpCE (fun _ => 2)
        (camAtPosCE, some (CamMotion.moveCamera nodeCE 1)) (n + 1) =
      (camAtPosCE, none) := by
  induction n with
  | zero =>
    norm_num [camIter, camTick, camStep, CamMotion.moveCamera, camAtPosCE,
      nodeCE]
  | succ n ih =>
    have hstep : camIter lookAtCE easeCE rotLerpCE (fun _ => 2)
        (camAtPosCE, some (CamMotion.moveCamera nodeCE 1)) (n + 1 + 1) =
        camTick lookAtCE easeCE rotLerpCE
          (camIter lookAtCE easeCE rotLerpCE (fun _ => 2)
            (camAtPosCE, some (CamMotion.moveCamera nodeCE 1)) (n + 1)) 2 :=
      rfl
    rw [hstep, ih]
    rfl

/-- C6 counterexample: total time 1, a first tick of duration 2 (cumulative
sum ≥ 1), a camera already at the destination *position* but with a rotation
different from the destination's.  The action pops on the first tick without
touching the camera, and no number of ticks ever reaches the destination
transform with the action popped. -/
theorem camMotion_no_convergence_at_dest_pos :
    camIter lookAtCE easeCE rotLerpCE (fun _ => 2)
        (camAtPosCE, some (CamMotion.moveCamera nodeCE 1)) 1 =
      (camAtPosCE, none) ∧
    camAtPosCE ≠ destTransform lookAtCE nodeCE ∧
    ¬ ∃ n, camIter lookAtCE easeCE rotLerpCE (fun _ => 2)
        (camAtPosCE, some (CamMotion.moveCamera nodeCE 1)) n =
      (destTransform lookAtCE nodeCE, none) := by
  refine ⟨camIter_degenerate_fix 0, ?_, ?_⟩
  · simp [camAtPosCE, destTransform, nodeCE, lookAtCE]
  · rintro ⟨n, hn⟩
    cases n with
    | zero => simp [camIter] at hn
    | succ n =>
      rw [camIter_degenerate_fix n] at hn
      simp [camAtPosCE, destTransform, nodeCE, lookAtCE, Prod.ext_iff] at hn

/-- Witness for the amended C6 theorem: rotation model `Bool`, identity
easing, total time 2, constant tick duration 2, camera starting away from
the destination position. -/
theorem camMotion_converges_witness :
    ∃ n, camIter lookAtCE easeCE rotLerpCE (fun _ => 2)
        (camCE, some (CamMotion.moveCamera nodeCE 2)) n =
      (destTransform lookAtCE nodeCE, none) :=
  camMotion_converges lookAtCE easeCE rotLerpCE camCE nodeCE 2 (fun _ => 2)
    (fun _ _ h => h) (two_pos : (0 : ℚ) < 2)
    (by simp [camCE, nodeCE]) (fun _ => (two_pos : (0 : ℚ) < 2))
    ⟨1, by simp [ticksSum]⟩

/-! ## Setup:AtStart (`handle_phase`, `SetupSubPhase::AtStart`)

The `HashMap<Entity, &mut Player>` built from the player query is modelled
as a total map `Entity → Player` (every entity in `play_order` denotes a
spawned player, so the `unwrap`s on map lookups cannot fire); the panic of
indexing `play_order[active_player]` out of bounds is kept as `none`. -/

/-- A `player.total_spice += amount` on the entity `e` of the player map. -/
def creditSpice (players : Entity → Player) (e : Entity) (amount : Int) :
    Entity → Player :=
  Function.update players e
    { players e with total_spice := (players e).total_spice + amount }

/-- The `for &first_entity in info.play_order.iter()` scan of the
BeneGesserit/Fremen arm of `SetupSubPhase::AtStart`; `entity` is the active
player's entity, `activeFaction` its faction.  In the "BG is first in turn
order" arm, the source's second block reads `players.get_mut(&entity)` —
the *active* player again — although its comment speaks of the Fremen
player, and pushes a placement for `first_entity` with the values of that
(active) player's faction; this is reproduced faithfully. -/
def atStartScan (iv : InitialValues) (entity : Entity)
    (activeFaction : Faction) :
    List Entity → (Entity → Player) → List Action →
      (Entity → Player) × List Action
  | [], players, stack => (players, stack)
  | first_entity :: rest, players, stack =>
    if (players first_entity).faction = Faction.beneGesserit then
      if activeFaction = Faction.beneGesserit then
        let vals := iv (players entity).faction
        let players1 := creditSpice players entity vals.2.2
        let stack1 := Action.placeFreeTroops entity vals.1 vals.2.1 :: stack
        let vals2 := iv (players1 entity).faction
        let players2 := creditSpice players1 entity vals2.2.2
        let stack2 :=
          Action.placeFreeTroops first_entity vals2.1 vals2.2.1 :: stack1
        (players2, stack2)
      else (players, stack)
    else if (players first_entity).faction = Faction.fremen then
      let vals := iv (players entity).faction
      (creditSpice players entity vals.2.2,
        Action.placeFreeTroops entity vals.1 vals.2.1 :: stack)
    else atStartScan iv entity activeFaction rest players stack

/-- `SetupSubPhase::AtStart` of `handle_phase`: resolve the active player's
initial placement, then advance `active_player` modulo `play_order.len()`.
`none` is the panic of `play_order[active_player]` out of bounds. -/
def atStart (iv : InitialValues) (play_order : List Entity)
    (active_player : Nat) (players : Entity → Player)
    (stack : List Action) :
    Option ((Entity → Player) × List Action × Nat) :=
  match play_order.get? active_player with
  | none => none
  | some entity =>
    let activeFaction := (players entity).faction
    let res :=
      match activeFaction with
      | Faction.beneGesserit | Faction.fremen =>
        atStartScan iv entity activeFaction play_order players stack
      | _ =>
        let vals := iv activeFaction
        (creditSpice players entity vals.2.2,
          Action.placeFreeTroops entity vals.1 vals.2.1 :: stack)
    some (res.1, res.2, (active_player + 1) % play_order.length)

/-! ## Setup:DealTraitors (`handle_phase`, `SetupSubPhase::DealTraitors`) -/

/-- The `SetupSubPhase` enum of `main.rs`. -/
inductive SetupSubPhase where
  | chooseFactions
  | prediction
  | atStart
  | dealTraitors
  | pickTraitors
  | dealTreachery
deriving DecidableEq

/-- `Vec::pop`: remove and return the last element. -/
def popBack {α : Type} (l : List α) : Option (α × List α) :=
  match l.getLast? with
  | none => none
  | some x => some (x, l.dropLast)

/-- One round of `SetupSubPhase::DealTraitors`: each entity of `order` that
is a player (the `if let Ok(..) = player_query.get_mut(entity)` guard)
pushes the popped top of the traitor deck onto its `traitor_cards`;
`none` is the `unwrap` panic on an empty deck. -/
def dealTraitorRound (isPlayer : Entity → Bool) :
    List Entity → (Entity → Player) → List Entity →
      Option ((Entity → Player) × List Entity)
  | [], players, deck => some (players, deck)
  | e :: rest, players, deck =>
    if isPlayer e then
      match popBack deck with
      | none => none
      | some (card, deck') =>
        dealTraitorRound isPlayer rest
          (Function.update players e
            { players e with
                traitor_cards := (players e).traitor_cards ++ [card] })
          deck'
    else dealTraitorRound isPlayer rest players deck

/-- `n` rounds of dealing (the source's `for _ in 0..4` uses `n = 4`). -/
def dealTraitorRounds (isPlayer : Entity → Bool) (order : List Entity) :
    Nat → (Entity → Player) → List Entity →
      Option ((Entity → Player) × List Entity)
  | 0, players, deck => some (players, deck)
  | n + 1, players, deck =>
    match dealTraitorRound isPlayer order players deck with
    | none => none
    | some (p, d) => dealTraitorRounds isPlayer order n p d

/-- `SetupSubPhase::DealTraitors`: four rounds of one card per player, then
the sub-phase becomes `PickTraitors`. -/
def dealTraitors (isPlayer : Entity → Bool) (order : List Entity)
    (players : Entity → Player) (deck : List Entity) :
    Option ((Entity → Player) × List Entity × SetupSubPhase) :=
  (dealTraitorRounds isPlayer order 4 players deck).map
    (fun r => (r.1, r.2, SetupSubPhase.pickTraitors))

/-! ## Theorems: Setup:AtStart (C1, C2) and `Player::new` (C10) -/

theorem creditSpice_same (players : Entity → Player) (e : Entity) (a : Int) :
    creditSpice players e a e =
      { players e with total_spice := (players e).total_spice + a } := by
  simp [creditSpice]

theorem creditSpice_other (players : Entity → Player) (e x : Entity)
    (a : Int) (h : x ≠ e) : creditSpice players e a x = players x := by
  simp [creditSpice, Function.update_noteq h]

theorem creditSpice_faction (players : Entity → Player) (e x : Entity)
    (a : Int) : ((creditSpice players e a) x).faction = (players x).faction := by
  by_cases h : x = e
  · subst h; simp [creditSpice]
  · simp [creditSpice, Function.update_noteq h]

/-- Behaviour of the AtStart scan when the first of {BeneGesserit, Fremen}
in play order is the BeneGesserit player and the active player is (also)
BeneGesserit: both spice credits go to the active entity and both pushed
placements carry the BeneGesserit faction's initial values. -/
theorem atStartScan_bg_first (iv : InitialValues) (entity : Entity)
    (players : Entity → Player) (stack : List Action)
    (pre : List Entity) (firstE : Entity) (rest : List Entity)
    (hpre : ∀ e ∈ pre, (players e).faction ≠ Faction.beneGesserit ∧
      (players e).faction ≠ Faction.fremen)
    (hfirst : (players firstE).faction = Faction.beneGesserit)
    (hact : (players entity).faction = Faction.beneGesserit) :
    atStartScan iv entity Faction.beneGesserit (pre ++ firstE :: rest)
        players stack =
      (creditSpice (creditSpice players entity (iv Faction.beneGesserit).2.2)
          entity (iv Faction.beneGesserit).2.2,
        Action.placeFreeTroops firstE (iv Faction.beneGesserit).1
            (iv Faction.beneGesserit).2.1 ::
          Action.placeFreeTroops entity (iv Faction.beneGesserit).1
            (iv Faction.beneGesserit).2.1 :: stack) := by
  induction pre with
  | nil =>
    simp [atStartScan, hfirst, hact, creditSpice_faction]
  | cons e pre ih =>
    have he := hpre e (List.mem_cons_self _ _)
    simp only [List.cons_append, atStartScan, he.1, he.2, if_false,
      ite_false]
    exact ih (fun x hx => hpre x (List.mem_cons_of_mem _ hx))

/-- C2 (corrected): in Setup:AtStart, when the active player's faction is
BeneGesserit and the first of {BeneGesserit, Fremen} in `play_order` is the
BeneGesserit player, the resolver pushes the *active BeneGesserit player's*
`PlaceFreeTroops` first and then, on top of it, a second `PlaceFreeTroops`
naming the scanned BeneGesserit entity — *both* carrying the BeneGesserit
faction's own initial troop count and locations (the source's second block
reads `players.get_mut(&entity)`, the active player, where its comment says
"fremen").  The BeneGesserit player is credited the BeneGesserit initial
spice twice; no other player — in particular no Fremen player — is changed,
and no action for the Fremen player is pushed. -/
theorem atStart_bg_first_pushes (iv : InitialValues) (play_order : List Entity)
    (active : Nat) (entity : Entity) (players : Entity → Player)
    (stack : List Action) (pre : List Entity) (firstE : Entity)
    (rest : List Entity)
    (hget : play_order.get? active = some entity)
    (hsplit : play_order = pre ++ firstE :: rest)
    (hpre : ∀ e ∈ pre, (players e).faction ≠ Faction.beneGesserit ∧
      (players e).faction ≠ Faction.fremen)
    (hfirst : (players firstE).faction = Faction.beneGesserit)
    (hact : (players entity).faction = Faction.beneGesserit) :
    ∃ players',
      atStart iv play_order active players stack =
        some (players',
          Action.placeFreeTroops firstE (iv Faction.beneGesserit).1
              (iv Faction.beneGesserit).2.1 ::
            Action.placeFreeTroops entity (iv Faction.beneGesserit).1
              (iv Faction.beneGesserit).2.1 :: stack,
          (active + 1) % play_order.length) ∧
      (players' entity).total_spice =
        (players entity).total_spice + 2 * (iv Faction.beneGesserit).2.2 ∧
      ∀ e, e ≠ entity → players' e = players e := by
  refine ⟨creditSpice (creditSpice players entity (iv Faction.beneGesserit).2.2)
      entity (iv Faction.beneGesserit).2.2, ?_, ?_, ?_⟩
  · simp only [atStart, hget, hact]
    rw [hsplit, atStartScan_bg_first iv entity players stack pre firstE rest
      hpre hfirst hact]
  · simp [creditSpice]
    ring
  · intro e he
    rw [creditSpice_other _ _ _ _ he, creditSpice_other _ _ _ _ he]

/-- Concrete initial values for evaluations (the real table lives in
`data.rs`; any table with nonzero spice values exhibits the behaviour). -/
def ivCE : InitialValues := fun f =>
  match f with
  | Faction.beneGesserit => (1, none, 5)
  | Faction.fremen =>
    (10, some ["Sietch Tabr", "False Wall South", "False Wall West"], 3)
  | _ => (10, none, 10)

/-- Two players: entity 0 the BeneGesserit player, entity 1 the Fremen
player (other entities harmlessly share the Fremen record). -/
def playersCE : Entity → Player := fun e =>
  if e = 0 then Player.new Faction.beneGesserit [] ivCE
  else Player.new Faction.fremen [] ivCE

/-- The whole Setup:AtStart sub-phase with play order `[0, 1]`: the first
activation (BeneGesserit active), then the second (Fremen active). -/
def atStartRunCE : Option ((Entity → Player) × List Action × Nat) :=
  match atStart ivCE [0, 1] 0 playersCE [] with
  | none => none
  | some (p1, s1, a1) => atStart ivCE [0, 1] a1 p1 s1

/-- C2 counterexample: with the BeneGesserit player (entity 0) before the
Fremen player (entity 1) in play order and BeneGesserit active, the action
pushed *first* (the bottom of the two) is a placement for entity 0 with
BeneGesserit's troop count — not the Fremen player's placement with
Fremen's initial values, as the claim states. -/
theorem atStart_bg_first_no_fremen_action :
    (atStart ivCE [0, 1] 0 playersCE []).map (fun r => r.2.1) =
      some [Action.placeFreeTroops 0 1 none,
        Action.placeFreeTroops 0 1 none] ∧
    ¬ (atStart ivCE [0, 1] 0 playersCE []).map (fun r => r.2.1) =
      some [Action.placeFreeTroops 0 1 none,
        Action.placeFreeTroops 1 (ivCE Faction.fremen).1
          (ivCE Faction.fremen).2.1] := by
  have hrun : (atStart ivCE [0, 1] 0 playersCE []).map (fun r => r.2.1) =
      some [Action.placeFreeTroops 0 1 none,
        Action.placeFreeTroops 0 1 none] := rfl
  refine ⟨hrun, fun h => ?_⟩
  rw [hrun] at h
  simp [ivCE] at h

/-- Witness for the corrected C2 theorem on the concrete two-player game. -/
theorem atStart_bg_first_pushes_witness :
    ∃ players',
      atStart ivCE [0, 1] 0 playersCE [] =
        some (players',
          Action.placeFreeTroops 0 (ivCE Faction.beneGesserit).1
              (ivCE Faction.beneGesserit).2.1 ::
            Action.placeFreeTroops 0 (ivCE Faction.beneGesserit).1
              (ivCE Faction.beneGesserit).2.1 :: [],
          (0 + 1) % [0, 1].length) ∧
      (players' 0).total_spice =
        (playersCE 0).total_spice + 2 * (ivCE Faction.beneGesserit).2.2 ∧
      ∀ e, e ≠ 0 → players' e = playersCE e :=
  atStart_bg_first_pushes ivCE [0, 1] 0 0 playersCE [] [] 0 [1] rfl rfl
    (fun e he => absurd he (List.not_mem_nil e)) rfl rfl

/-- C1 (code bug): play order `[0, 1]`, the BeneGesserit player (entity 0)
before the Fremen player (entity 1).  Running Setup:AtStart once with each
player active credits the BeneGesserit player twice (total spice 5 → 15,
i.e. +2·5) and the Fremen player not at all (3 → 3), and the only placement
actions pushed are two actions for entity 0 — the Fremen player never
receives one.  The claim (each player credited its own initial spice exactly
once) fails; the source's own comment "Then fremen go on, so they will go
before BG" sits on code that reads the *active* player's entry instead of
the Fremen player's. -/
theorem atStart_double_credit_bug :
    (playersCE 0).faction = Faction.beneGesserit ∧
    (playersCE 1).faction = Faction.fremen ∧
    (playersCE 0).total_spice = 5 ∧
    (playersCE 1).total_spice = 3 ∧
    atStartRunCE.map
        (fun r => ((r.1 0).total_spice, (r.1 1).total_spice)) =
      some (15, 3) ∧
    atStartRunCE.map (fun r => r.2.1) =
      some [Action.placeFreeTroops 0 1 none,
        Action.placeFreeTroops 0 1 none] :=
  ⟨rfl, rfl, rfl, rfl, rfl, rfl⟩

/-- C10: `Player::new` sets, for every faction, `total_spice` to that
faction's initial spice value, `reserve_troops` to 20 minus the faction's
initial troop count, and `leaders` to exactly the supplied table entries
whose faction matches; in particular, whenever the faction's initial spice
is nonzero, `total_spice` is already nonzero before any Setup:AtStart
crediting. -/
theorem player_new_initial_state (faction : Faction)
    (all_leaders : List Leader) (iv : InitialValues) :
    (Player.new faction all_leaders iv).total_spice = (iv faction).2.2 ∧
    (Player.new faction all_leaders iv).reserve_troops =
      20 - (iv faction).1 ∧
    (∀ l : Leader, l ∈ (Player.new faction all_leaders iv).leaders ↔
      l ∈ all_leaders ∧ l.faction = faction) ∧
    ((iv faction).2.2 ≠ 0 →
      (Player.new faction all_leaders iv).total_spice ≠ 0) := by
  refine ⟨rfl, rfl, fun l => ?_, fun h => h⟩
  simp [Player.new, List.mem_filter]

/-- A two-entry leader table for the C10 witness. -/
def leadersCE : List Leader :=
  [⟨Faction.atreides, "leto"⟩, ⟨Faction.harkonnen, "baron"⟩]

/-- Witness for C10 with the Atreides faction and a two-entry table. -/
theorem player_new_initial_state_witness :
    (Player.new Faction.atreides leadersCE ivCE).total_spice =
      (ivCE Faction.atreides).2.2 ∧
    (Player.new Faction.atreides leadersCE ivCE).reserve_troops =
      20 - (ivCE Faction.atreides).1 ∧
    (Leader.mk Faction.atreides "leto" ∈
        (Player.new Faction.atreides leadersCE ivCE).leaders ↔
      Leader.mk Faction.atreides "leto" ∈ leadersCE ∧
        (Leader.mk Faction.atreides "leto").faction = Faction.atreides) ∧
    (Player.new Faction.atreides leadersCE ivCE).total_spice ≠ 0 :=
  ⟨(player_new_initial_state Faction.atreides leadersCE ivCE).1,
   (player_new_initial_state Faction.atreides leadersCE ivCE).2.1,
   (player_new_initial_state Faction.atreides leadersCE ivCE).2.2.1
     (Leader.mk Faction.atreides "leto"),
   (player_new_initial_state Faction.atreides leadersCE ivCE).2.2.2
     (by decide)⟩

/-! ## Theorems: Setup:DealTraitors (C8) -/

theorem popBack_of_ne_nil {α : Type} (l : List α) (h : l ≠ []) :
    ∃ x, popBack l = some (x, l.dropLast) := by
  rcases hx : l.getLast? with _ | x
  · exact absurd (List.getLast?_eq_none_iff.mp hx) h
  · exact ⟨x, by simp [popBack, hx]⟩

/-- One dealing round: with every listed entity a player, no duplicates in
the order and enough cards, the round succeeds, shrinks the deck by one card
per entity, gives each listed player exactly one more traitor card and
leaves everyone else untouched. -/
theorem dealTraitorRound_ok (isPlayer : Entity → Bool) (order : List Entity) :
    ∀ (players : Entity → Player) (deck : List Entity),
      (∀ e ∈ order, isPlayer e = true) → order.Nodup →
      order.length ≤ deck.length →
      ∃ players' deck',
        dealTraitorRound isPlayer order players deck =
          some (players', deck') ∧
        deck'.length = deck.length - order.length ∧
        (∀ e ∈ order, (players' e).traitor_cards.length =
          (players e).traitor_cards.length + 1) ∧
        (∀ e, e ∉ order → players' e = players e) := by
  induction order with
  | nil =>
    intro players deck _ _ _
    exact ⟨players, deck, rfl, by simp, by simp, fun _ _ => rfl⟩
  | cons e rest ih =>
    intro players deck hall hnodup hlen
    have hp : isPlayer e = true := hall e (List.mem_cons_self _ _)
    have hdeck : deck ≠ [] := by
      intro h0; rw [h0] at hlen; simp at hlen
    obtain ⟨card, hpop⟩ := popBack_of_ne_nil deck hdeck
    have hlen' : rest.length ≤ deck.dropLast.length := by
      rw [List.length_dropLast]
      have := List.length_pos.mpr hdeck
      simp only [List.length_cons] at hlen
      omega
    have hnd := List.nodup_cons.mp hnodup
    obtain ⟨players', deck', hrun, hdlen, hplus, hother⟩ :=
      ih (Function.update players e
          { players e with
              traitor_cards := (players e).traitor_cards ++ [card] })
        deck.dropLast
        (fun x hx => hall x (List.mem_cons_of_mem _ hx)) hnd.2 hlen'
    refine ⟨players', deck', ?_, ?_, ?_, ?_⟩
    · simp [dealTraitorRound, hp, hpop, hrun]
    · rw [hdlen, List.length_dropLast] at *
      have := List.length_pos.mpr hdeck
      simp only [List.length_cons]
      omega
    · intro x hx
      rcases List.mem_cons.mp hx with hxe | hxr
      · subst hxe
        rw [hother x hnd.1]
        simp [Function.update_same]
      · rw [hplus x hxr]
        have hxne : x ≠ e := fun hh => hnd.1 (hh ▸ hxr)
        rw [Function.update_noteq hxne]
    · intro x hx
      have hxe : x ≠ e := fun hh => hx (hh ▸ List.mem_cons_self _ _)
      have hxr : x ∉ rest := fun hh => hx (List.mem_cons_of_mem _ hh)
      rw [hother x hxr, Function.update_noteq hxe]

/-- C8: with `traitor_deck` holding at least `4 * player_count` cards (the
play-order entities being the players, pairwise distinct), Setup:DealTraitors
never reaches the empty-deck `unwrap` panic: it returns a state (rather than
`none`) in which every player of `play_order` gained exactly 4 traitor
cards, the deck shrank by exactly `4 * player_count`, everyone else is
untouched, and the sub-phase is `PickTraitors`. -/
theorem dealTraitors_ok (isPlayer : Entity → Bool) (order : List Entity)
    (players : Entity → Player) (deck : List Entity)
    (hall : ∀ e ∈ order, isPlayer e = true) (hnodup : order.Nodup)
    (hlen : 4 * order.length ≤ deck.length) :
    ∃ players' deck',
      dealTraitors isPlayer order players deck =
        some (players', deck', SetupSubPhase.pickTraitors) ∧
      deck'.length = deck.length - 4 * order.length ∧
      (∀ e ∈ order, (players' e).traitor_cards.length =
        (players e).traitor_cards.length + 4) ∧
      (∀ e, e ∉ order → players' e = players e) := by
  obtain ⟨p1, d1, h1, hd1, hp1, ho1⟩ :=
    dealTraitorRound_ok isPlayer order players deck hall hnodup
      (by omega)
  obtain ⟨p2, d2, h2, hd2, hp2, ho2⟩ :=
    dealTraitorRound_ok isPlayer order p1 d1 hall hnodup (by omega)
  obtain ⟨p3, d3, h3, hd3, hp3, ho3⟩ :=
    dealTraitorRound_ok isPlayer order p2 d2 hall hnodup (by omega)
  obtain ⟨p4, d4, h4, hd4, hp4, ho4⟩ :=
    dealTraitorRound_ok isPlayer order p3 d3 hall hnodup (by omega)
  refine ⟨p4, d4, ?_, by omega, ?_, ?_⟩
  · simp [dealTraitors, dealTraitorRounds, h1, h2, h3, h4]
  · intro e he
    rw [hp4 e he, hp3 e he, hp2 e he, hp1 e he]
  · intro e he
    rw [ho4 e he, ho3 e he, ho2 e he, ho1 e he]

/-- Witness for C8: two players, an eight-card deck. -/
theorem dealTraitors_ok_witness :
    ∃ players' deck',
      dealTraitors (fun _ => true) [0, 1] playersCE
          [10, 11, 12, 13, 14, 15, 16, 17] =
        some (players', deck', SetupSubPhase.pickTraitors) ∧
      deck'.length = [10, 11, 12, 13, 14, 15, 16, 17].length - 4 * [0, 1].length ∧
      (∀ e ∈ [0, 1], (players' e).traitor_cards.length =
        (playersCE e).traitor_cards.length + 4) ∧
      (∀ e, e ∉ [0, 1] → players' e = playersCE e) :=
  dealTraitors_ok (fun _ => true) [0, 1] playersCE
    [10, 11, 12, 13, 14, 15, 16, 17] (fun _ _ => rfl) (by decide) (by decide)

end Dune
